import Mathlib

/-!
Verification of the character-stream tokenizer specified for the
USF-CS631 in-class Rust corpus.

The Cursor component is embedded from the source
(`src/week01/rust/src/bin/07_while_let.rs`, `struct CharStream` with its
`new`, `next` and `peek` methods).  The full Scanner (states `Start`/`Done`,
`next_token`, number/identifier/string modes) appears in the repository only
as fragments (a `Token` enum and per-character classification in
`14_chaining.rs`); the complete state machine is modelled from the
specification, as marked on each such definition.
-/

/-- Embedded from `07_while_let.rs`: `struct CharStream { chars: Vec<char>, pos: usize }`.
The input is the list of characters and `pos` the zero-based read position. -/
structure CharStream where
  chars : List Char
  pos : Nat
deriving DecidableEq

/-- Embedded from `07_while_let.rs`: `CharStream::new` collects the characters
of the string and starts at position 0. -/
def CharStream.new (s : String) : CharStream :=
  { chars := s.data, pos := 0 }

/-- Embedded from `07_while_let.rs`: `CharStream::next` (the spec calls it
`advance`).  If `pos < chars.len()` it returns the character at `pos` and
increments `pos`; otherwise it returns `None` and leaves the state unchanged.
Rust mutates `self`; here the updated state is returned alongside the result. -/
def CharStream.next (s : CharStream) : Option Char × CharStream :=
  if h : s.pos < s.chars.length then
    (some (s.chars.get ⟨s.pos, h⟩), { s with pos := s.pos + 1 })
  else
    (none, s)

/-- Embedded from `07_while_let.rs`: `CharStream::peek` takes `&self` (no
mutation) and returns the character at `pos`, or `None` at end of input. -/
def CharStream.peek (s : CharStream) : Option Char :=
  if h : s.pos < s.chars.length then
    some (s.chars.get ⟨s.pos, h⟩)
  else
    none

/-- Calling `peek` as a state-passing operation: since the Rust method takes
`&self`, the state after the call is the state before it. -/
def CharStream.peekOp (s : CharStream) : Option Char × CharStream :=
  (s.peek, s)

theorem CharStream.next_chars (s : CharStream) : (s.next).2.chars = s.chars := by
  unfold CharStream.next
  split <;> rfl

theorem CharStream.next_pos_ge (s : CharStream) : s.pos ≤ (s.next).2.pos := by
  unfold CharStream.next
  split <;> simp

theorem CharStream.next_pos_le (s : CharStream) :
    (s.next).2.pos ≤ max s.pos s.chars.length := by
  unfold CharStream.next
  split
  · simp
    omega
  · simp

theorem CharStream.peek_lt {s : CharStream} {c : Char}
    (h : s.peek = some c) : s.pos < s.chars.length := by
  unfold CharStream.peek at h
  by_cases hlt : s.pos < s.chars.length
  · exact hlt
  · simp [hlt] at h

theorem CharStream.next_of_lt {s : CharStream} (h : s.pos < s.chars.length) :
    s.next = (some (s.chars.get ⟨s.pos, h⟩), { s with pos := s.pos + 1 }) := by
  unfold CharStream.next
  simp [h]

theorem CharStream.next_of_ge {s : CharStream} (h : s.chars.length ≤ s.pos) :
    s.next = (none, s) := by
  unfold CharStream.next
  simp [Nat.not_lt_of_ge h]

theorem CharStream.peek_of_lt {s : CharStream} (h : s.pos < s.chars.length) :
    s.peek = some (s.chars.get ⟨s.pos, h⟩) := by
  unfold CharStream.peek
  simp [h]

theorem CharStream.peek_of_ge {s : CharStream} (h : s.chars.length ≤ s.pos) :
    s.peek = none := by
  unfold CharStream.peek
  simp [Nat.not_lt_of_ge h]

theorem CharStream.next_pos_of_peek {s : CharStream} {c : Char}
    (h : s.peek = some c) : (s.next).2.pos = s.pos + 1 := by
  have hlt := CharStream.peek_lt h
  rw [CharStream.next_of_lt hlt]

/-- Modelled from the spec: the `Token` sum type of §3.  The repository holds
only fragments of it (`14_chaining.rs` has `Number`, `Plus`, `Minus`,
`Unknown`; `01_enums.rs`/`02_enums_data.rs` add operators and payloads); the
complete closed set of variants follows the specification. -/
inductive Token where
  | EndOfInput : Token
  | Plus : Token
  | Minus : Token
  | Star : Token
  | Slash : Token
  | Number (value : Nat) : Token
  | Identifier (name : String) : Token
  | StringLiteral (content : String) : Token
  | Unknown (c : Char) : Token
deriving DecidableEq

/-- Modelled from the spec: the result of one `next_token` call.  §7 requires
the unterminated-string condition to be "an explicit failure signal distinct
from normal tokens", so the result type separates it from every `Token`. -/
inductive ScanResult where
  | tok (t : Token) : ScanResult
  | unterminated : ScanResult
deriving DecidableEq

/-- Modelled from the spec: first character of an identifier lexeme,
"a letter or underscore" (§3, §4.2). -/
def isIdentStart (c : Char) : Bool :=
  c.isAlpha || c == '_'

/-- Modelled from the spec: continuation character of an identifier lexeme,
"letters, digits, or underscores" (§3, §4.2). -/
def isIdentCont (c : Char) : Bool :=
  c.isAlpha || c.isDigit || c == '_'

/-- Numeric value of a decimal digit character, as in `14_chaining.rs`:
`(c as i64) - ('0' as i64)`. -/
def digitVal (c : Char) : Nat :=
  c.toNat - '0'.toNat

/-- Modelled from the spec: the whitespace-skipping loop of §4.2 step 1,
"while `peek()` is a whitespace character, `advance()`".  The loop is written
with an explicit iteration bound (`fuel`); every iteration advances the
cursor by one, so `chars.length - pos` iterations always suffice and the
bound is never the reason the loop stops. -/
def skipWsF : Nat → CharStream → CharStream
  | 0, s => s
  | fuel + 1, s =>
    match s.peek with
    | some c => if c.isWhitespace then skipWsF fuel (s.next).2 else s
    | none => s

/-- Modelled from the spec: whitespace skipping at the start of every
`next_token` call, with the iteration bound fixed at the remaining input. -/
def skipWhitespace (s : CharStream) : CharStream :=
  skipWsF (s.chars.length - s.pos) s

/-- Modelled from the spec: number mode (§4.2 step 3), "repeatedly `advance()`
while `peek()` is a digit, accumulating the numeric value positionally
(`value = value * 10 + digit`)".  Fueled as in `skipWsF`. -/
def scanNumberF : Nat → CharStream → Nat → Nat × CharStream
  | 0, s, value => (value, s)
  | fuel + 1, s, value =>
    match s.peek with
    | some c =>
        if c.isDigit then scanNumberF fuel (s.next).2 (value * 10 + digitVal c)
        else (value, s)
    | none => (value, s)

/-- Modelled from the spec: number mode entered from `next_token`, starting
from accumulator 0.  The value is a mathematical natural, so the overflow
policy of §7 never triggers. -/
def scanNumber (s : CharStream) : Nat × CharStream :=
  scanNumberF (s.chars.length - s.pos) s 0

/-- Modelled from the spec: identifier mode (§4.2 step 3), "repeatedly
`advance()` while `peek()` is a letter, digit, or underscore", accumulating
the exact consumed text.  Fueled as in `skipWsF`. -/
def scanIdentF : Nat → CharStream → List Char → List Char × CharStream
  | 0, s, acc => (acc, s)
  | fuel + 1, s, acc =>
    match s.peek with
    | some c =>
        if isIdentCont c then scanIdentF fuel (s.next).2 (acc ++ [c])
        else (acc, s)
    | none => (acc, s)

/-- Modelled from the spec: identifier mode entered from `next_token`. -/
def scanIdent (s : CharStream) : List Char × CharStream :=
  scanIdentF (s.chars.length - s.pos) s []

/-- Modelled from the spec: string mode (§4.2 step 3), entered after the
opening quote is consumed: "repeatedly `advance()` accumulating characters
until an unescaped closing `\"` is found and consumed"; a backslash escapes
the character after it.  Reaching end of input first yields `none`, the
unterminated-string condition of §7.  Fueled as in `skipWsF` (the escape case
consumes two characters per unit of fuel, so the bound again suffices). -/
def scanStringF : Nat → CharStream → List Char → Option (List Char) × CharStream
  | 0, s, _ => (none, s)
  | fuel + 1, s, acc =>
    match s.peek with
    | none => (none, s)
    | some c =>
        if c == '"' then (some acc, (s.next).2)
        else if c == '\\' then
          let s1 := (s.next).2
          match s1.peek with
          | none => (none, s1)
          | some e => scanStringF fuel (s1.next).2 (acc ++ [e])
        else scanStringF fuel (s.next).2 (acc ++ [c])

/-- Modelled from the spec: string mode entered from `next_token`, with the
cursor already past the opening quote. -/
def scanString (s : CharStream) : Option (List Char) × CharStream :=
  scanStringF (s.chars.length - s.pos) s []

/-- Modelled from the spec: the Scanner of §4.2.  It owns the Cursor and the
`Done` flag of the state machine summary ("`Done` is entered once
`EndOfInput` is produced and is absorbing"); the intermediate states
`InNumber`/`InIdentifier`/`InString` live only inside one `next_token` call,
as the loops above. -/
structure Scanner where
  cursor : CharStream
  done : Bool
deriving DecidableEq

/-- Modelled from the spec: a fresh Cursor/Scanner pair over an input text,
in the `Start` state. -/
def Scanner.new (input : String) : Scanner :=
  { cursor := CharStream.new input, done := false }

/-- Modelled from the spec: §4.2 step 3, classification of the peeked
character and dispatch, for a cursor whose `peek` returned `c` (whitespace is
already skipped, so `c` is not consumed as whitespace). -/
def dispatch (s : CharStream) (c : Char) : ScanResult × Scanner :=
  if c.isDigit then
    let r := scanNumber s
    (ScanResult.tok (Token.Number r.1), { cursor := r.2, done := false })
  else if isIdentStart c then
    let r := scanIdent s
    (ScanResult.tok (Token.Identifier (String.mk r.1)), { cursor := r.2, done := false })
  else if c == '"' then
    let r := scanString (s.next).2
    match r.1 with
    | some content =>
        (ScanResult.tok (Token.StringLiteral (String.mk content)), { cursor := r.2, done := false })
    | none => (ScanResult.unterminated, { cursor := r.2, done := true })
  else if c == '+' then (ScanResult.tok Token.Plus, { cursor := (s.next).2, done := false })
  else if c == '-' then (ScanResult.tok Token.Minus, { cursor := (s.next).2, done := false })
  else if c == '*' then (ScanResult.tok Token.Star, { cursor := (s.next).2, done := false })
  else if c == '/' then (ScanResult.tok Token.Slash, { cursor := (s.next).2, done := false })
  else (ScanResult.tok (Token.Unknown c), { cursor := (s.next).2, done := false })

/-- Modelled from the spec: `next_token` (§4.2).  In the `Done` state it
returns `EndOfInput` and stays put; otherwise it skips whitespace, returns
`EndOfInput` (entering `Done`) when the input is exhausted, and dispatches on
the peeked character otherwise. -/
def nextToken (sc : Scanner) : ScanResult × Scanner :=
  if sc.done then (ScanResult.tok Token.EndOfInput, sc)
  else
    let s := skipWhitespace sc.cursor
    match s.peek with
    | none => (ScanResult.tok Token.EndOfInput, { cursor := s, done := true })
    | some c => dispatch s c

/-- Modelled from the spec: the caller's drive loop, "caller requests next
token repeatedly" until `EndOfInput`.  Each call that does not return
`EndOfInput` strictly advances the cursor, so `chars.length - pos + 1` calls
always suffice and the bound is never the reason the loop stops. -/
def scanLoopF : Nat → Scanner → List ScanResult
  | 0, _ => []
  | fuel + 1, sc =>
    let r := nextToken sc
    if r.1 = ScanResult.tok Token.EndOfInput then [r.1]
    else r.1 :: scanLoopF fuel r.2

/-- Modelled from the spec: the full scan of an input text, the list of
results of repeated `next_token` calls up to and including the first
`EndOfInput`. -/
def tokenize (input : String) : List ScanResult :=
  scanLoopF (input.data.length + 1) (Scanner.new input)

/-- The state after one `next_token` call. -/
def scStep (sc : Scanner) : Scanner :=
  (nextToken sc).2

theorem skipWsF_chars (fuel : Nat) : ∀ s : CharStream, (skipWsF fuel s).chars = s.chars := by
  induction fuel with
  | zero => intro s; rfl
  | succ fuel ih =>
      intro s
      simp only [skipWsF]
      cases hp : s.peek with
      | none => rfl
      | some c =>
          by_cases hw : c.isWhitespace
          · simp only [hw, if_true]
            rw [ih, CharStream.next_chars]
          · simp [hw]

theorem skipWsF_pos_ge (fuel : Nat) : ∀ s : CharStream, s.pos ≤ (skipWsF fuel s).pos := by
  induction fuel with
  | zero => intro s; exact Nat.le_refl _
  | succ fuel ih =>
      intro s
      simp only [skipWsF]
      cases hp : s.peek with
      | none => exact Nat.le_refl _
      | some c =>
          by_cases hw : c.isWhitespace
          · simp only [hw, if_true]
            exact Nat.le_trans (CharStream.next_pos_ge s) (ih _)
          · simp [hw]

theorem skipWsF_pos_le (fuel : Nat) :
    ∀ s : CharStream, (skipWsF fuel s).pos ≤ max s.pos s.chars.length := by
  induction fuel with
  | zero => intro s; exact Nat.le_max_left _ _
  | succ fuel ih =>
      intro s
      simp only [skipWsF]
      cases hp : s.peek with
      | none => exact Nat.le_max_left _ _
      | some c =>
          by_cases hw : c.isWhitespace
          · simp only [hw, if_true]
            have h1 := ih (s.next).2
            have h2 := CharStream.next_pos_le s
            have h3 := CharStream.next_chars s
            rw [h3] at h1
            omega
          · simp [hw]

theorem skipWsF_not_ws {s : CharStream} {c : Char}
    (h : s.peek = some c) (hw : c.isWhitespace = false) (fuel : Nat) :
    skipWsF fuel s = s := by
  cases fuel with
  | zero => rfl
  | succ fuel => simp [skipWsF, h, hw]

theorem scanNumberF_chars (fuel : Nat) :
    ∀ (s : CharStream) (v : Nat), (scanNumberF fuel s v).2.chars = s.chars := by
  induction fuel with
  | zero => intro s v; rfl
  | succ fuel ih =>
      intro s v
      simp only [scanNumberF]
      cases hp : s.peek with
      | none => rfl
      | some c =>
          by_cases hd : c.isDigit
          · simp only [hd, if_true]
            rw [ih, CharStream.next_chars]
          · simp [hd]

theorem scanNumberF_pos_ge (fuel : Nat) :
    ∀ (s : CharStream) (v : Nat), s.pos ≤ (scanNumberF fuel s v).2.pos := by
  induction fuel with
  | zero => intro s v; exact Nat.le_refl _
  | succ fuel ih =>
      intro s v
      simp only [scanNumberF]
      cases hp : s.peek with
      | none => exact Nat.le_refl _
      | some c =>
          by_cases hd : c.isDigit
          · simp only [hd, if_true]
            exact Nat.le_trans (CharStream.next_pos_ge s) (ih _ _)
          · simp [hd]

theorem scanNumberF_pos_le (fuel : Nat) :
    ∀ (s : CharStream) (v : Nat), (scanNumberF fuel s v).2.pos ≤ max s.pos s.chars.length := by
  induction fuel with
  | zero => intro s v; exact Nat.le_max_left _ _
  | succ fuel ih =>
      intro s v
      simp only [scanNumberF]
      cases hp : s.peek with
      | none => exact Nat.le_max_left _ _
      | some c =>
          by_cases hd : c.isDigit
          · simp only [hd, if_true]
            have h1 := ih (s.next).2 (v * 10 + digitVal c)
            have h2 := CharStream.next_pos_le s
            have h3 := CharStream.next_chars s
            rw [h3] at h1
            omega
          · simp [hd]

theorem scanIdentF_chars (fuel : Nat) :
    ∀ (s : CharStream) (acc : List Char), (scanIdentF fuel s acc).2.chars = s.chars := by
  induction fuel with
  | zero => intro s acc; rfl
  | succ fuel ih =>
      intro s acc
      simp only [scanIdentF]
      cases hp : s.peek with
      | none => rfl
      | some c =>
          by_cases hc : isIdentCont c
          · simp only [hc, if_true]
            rw [ih, CharStream.next_chars]
          · simp [hc]

theorem scanIdentF_pos_ge (fuel : Nat) :
    ∀ (s : CharStream) (acc : List Char), s.pos ≤ (scanIdentF fuel s acc).2.pos := by
  induction fuel with
  | zero => intro s acc; exact Nat.le_refl _
  | succ fuel ih =>
      intro s acc
      simp only [scanIdentF]
      cases hp : s.peek with
      | none => exact Nat.le_refl _
      | some c =>
          by_cases hc : isIdentCont c
          · simp only [hc, if_true]
            exact Nat.le_trans (CharStream.next_pos_ge s) (ih _ _)
          · simp [hc]

theorem scanIdentF_pos_le (fuel : Nat) :
    ∀ (s : CharStream) (acc : List Char),
      (scanIdentF fuel s acc).2.pos ≤ max s.pos s.chars.length := by
  induction fuel with
  | zero => intro s acc; exact Nat.le_max_left _ _
  | succ fuel ih =>
      intro s acc
      simp only [scanIdentF]
      cases hp : s.peek with
      | none => exact Nat.le_max_left _ _
      | some c =>
          by_cases hc : isIdentCont c
          · simp only [hc, if_true]
            have h1 := ih (s.next).2 (acc ++ [c])
            have h2 := CharStream.next_pos_le s
            have h3 := CharStream.next_chars s
            rw [h3] at h1
            omega
          · simp [hc]

theorem scanStringF_chars (fuel : Nat) :
    ∀ (s : CharStream) (acc : List Char), (scanStringF fuel s acc).2.chars = s.chars := by
  induction fuel with
  | zero => intro s acc; rfl
  | succ fuel ih =>
      intro s acc
      simp only [scanStringF]
      cases hp : s.peek with
      | none => rfl
      | some c =>
          by_cases hq : c == '"'
          · simp only [hq, if_true]
            exact CharStream.next_chars s
          · by_cases he : c == '\\'
            · simp only [hq, he, if_false, if_true]
              cases hp2 : ((s.next).2).peek with
              | none => simp [CharStream.next_chars]
              | some e =>
                  simp only [Bool.false_eq_true, if_false]
                  rw [ih, CharStream.next_chars, CharStream.next_chars]
            · simp only [hq, he, Bool.false_eq_true, if_false]
              rw [ih, CharStream.next_chars]

theorem scanStringF_pos_ge (fuel : Nat) :
    ∀ (s : CharStream) (acc : List Char), s.pos ≤ (scanStringF fuel s acc).2.pos := by
  induction fuel with
  | zero => intro s acc; exact Nat.le_refl _
  | succ fuel ih =>
      intro s acc
      simp only [scanStringF]
      cases hp : s.peek with
      | none => exact Nat.le_refl _
      | some c =>
          by_cases hq : c == '"'
          · simp only [hq, if_true]
            exact CharStream.next_pos_ge s
          · by_cases he : c == '\\'
            · simp only [hq, he, if_false, if_true]
              cases hp2 : ((s.next).2).peek with
              | none => simp [CharStream.next_pos_ge]
              | some e =>
                  simp only [Bool.false_eq_true, if_false]
                  calc s.pos ≤ ((s.next).2).pos := CharStream.next_pos_ge s
                    _ ≤ (((s.next).2).next).2.pos := CharStream.next_pos_ge _
                    _ ≤ _ := ih _ _
            · simp only [hq, he, Bool.false_eq_true, if_false]
              exact Nat.le_trans (CharStream.next_pos_ge s) (ih _ _)

theorem scanStringF_pos_le (fuel : Nat) :
    ∀ (s : CharStream) (acc : List Char),
      (scanStringF fuel s acc).2.pos ≤ max s.pos s.chars.length := by
  induction fuel with
  | zero => intro s acc; exact Nat.le_max_left _ _
  | succ fuel ih =>
      intro s acc
      simp only [scanStringF]
      cases hp : s.peek with
      | none => exact Nat.le_max_left _ _
      | some c =>
          by_cases hq : c == '"'
          · simp only [hq, if_true]
            exact CharStream.next_pos_le s
          · by_cases he : c == '\\'
            · simp only [hq, he, if_false, if_true]
              cases hp2 : ((s.next).2).peek with
              | none =>
                  simp only [Bool.false_eq_true, if_false]
                  have := CharStream.next_pos_le s
                  omega
              | some e =>
                  simp only [Bool.false_eq_true, if_false]
                  have h1 := ih (((s.next).2).next).2 (acc ++ [e])
                  have h2 := CharStream.next_pos_le (s.next).2
                  have h3 := CharStream.next_pos_le s
                  have h4 := CharStream.next_chars s
                  have h5 := CharStream.next_chars (s.next).2
                  rw [h5, h4] at h1
                  rw [h4] at h2
                  omega
            · simp only [hq, he, Bool.false_eq_true, if_false]
              have h1 := ih (s.next).2 (acc ++ [c])
              have h2 := CharStream.next_pos_le s
              have h3 := CharStream.next_chars s
              rw [h3] at h1
              omega

theorem scanNumber_chars (s : CharStream) : (scanNumber s).2.chars = s.chars :=
  scanNumberF_chars _ s 0

theorem scanNumber_pos_le (s : CharStream) :
    (scanNumber s).2.pos ≤ max s.pos s.chars.length :=
  scanNumberF_pos_le _ s 0

theorem scanNumber_progress {s : CharStream} {c : Char}
    (h : s.peek = some c) (hd : c.isDigit = true) : s.pos < (scanNumber s).2.pos := by
  have hlt := CharStream.peek_lt h
  unfold scanNumber
  obtain ⟨k, hk⟩ : ∃ k, s.chars.length - s.pos = k + 1 :=
    ⟨s.chars.length - s.pos - 1, by omega⟩
  rw [hk]
  simp only [scanNumberF, h, hd, if_true]
  have h1 := scanNumberF_pos_ge k (s.next).2 (0 * 10 + digitVal c)
  have h2 := CharStream.next_pos_of_peek h
  omega

theorem scanIdent_chars (s : CharStream) : (scanIdent s).2.chars = s.chars :=
  scanIdentF_chars _ s []

theorem scanIdent_pos_le (s : CharStream) :
    (scanIdent s).2.pos ≤ max s.pos s.chars.length :=
  scanIdentF_pos_le _ s []

theorem isIdentStart_isCont {c : Char} (h : isIdentStart c = true) :
    isIdentCont c = true := by
  simp only [isIdentStart, Bool.or_eq_true] at h
  simp only [isIdentCont, Bool.or_eq_true]
  tauto

theorem scanIdent_progress {s : CharStream} {c : Char}
    (h : s.peek = some c) (hc : isIdentCont c = true) : s.pos < (scanIdent s).2.pos := by
  have hlt := CharStream.peek_lt h
  unfold scanIdent
  obtain ⟨k, hk⟩ : ∃ k, s.chars.length - s.pos = k + 1 :=
    ⟨s.chars.length - s.pos - 1, by omega⟩
  rw [hk]
  simp only [scanIdentF, h, hc, if_true]
  have h1 := scanIdentF_pos_ge k (s.next).2 ([] ++ [c])
  have h2 := CharStream.next_pos_of_peek h
  omega

theorem scanString_chars (s : CharStream) : (scanString s).2.chars = s.chars :=
  scanStringF_chars _ s []

theorem scanString_pos_ge (s : CharStream) : s.pos ≤ (scanString s).2.pos :=
  scanStringF_pos_ge _ s []

theorem scanString_pos_le (s : CharStream) :
    (scanString s).2.pos ≤ max s.pos s.chars.length :=
  scanStringF_pos_le _ s []

theorem skipWhitespace_chars (s : CharStream) : (skipWhitespace s).chars = s.chars :=
  skipWsF_chars _ s

theorem skipWhitespace_pos_ge (s : CharStream) : s.pos ≤ (skipWhitespace s).pos :=
  skipWsF_pos_ge _ s

theorem dispatch_progress {s : CharStream} {c : Char} (h : s.peek = some c) :
    s.pos < (dispatch s c).2.cursor.pos ∧
    (dispatch s c).2.cursor.pos ≤ s.chars.length ∧
    (dispatch s c).2.cursor.chars = s.chars := by
  have hlt := CharStream.peek_lt h
  have hnp := CharStream.next_pos_of_peek h
  have hnc := CharStream.next_chars s
  unfold dispatch
  by_cases hd : c.isDigit
  · simp only [hd, if_true]
    refine ⟨scanNumber_progress h hd, ?_, scanNumber_chars s⟩
    have := scanNumber_pos_le s
    omega
  · by_cases hi : isIdentStart c
    · simp only [hd, hi, Bool.false_eq_true, if_false, if_true]
      refine ⟨scanIdent_progress h (isIdentStart_isCont hi), ?_, scanIdent_chars s⟩
      have := scanIdent_pos_le s
      omega
    · by_cases hq : c == '"'
      · simp only [hd, hi, hq, Bool.false_eq_true, if_false, if_true]
        have hg := scanString_pos_ge (s.next).2
        have hl := scanString_pos_le (s.next).2
        have hc2 := scanString_chars (s.next).2
        rw [hnc] at hl hc2
        rw [hnp] at hg hl
        cases hr : (scanString (s.next).2).1 with
        | some content =>
            simp only []
            refine ⟨by omega, by omega, hc2⟩
        | none =>
            simp only []
            refine ⟨by omega, by omega, hc2⟩
      · by_cases hp : c == '+'
        · simp only [hd, hi, hq, hp, Bool.false_eq_true, if_false, if_true]
          exact ⟨by omega, by omega, hnc⟩
        · by_cases hm : c == '-'
          · simp only [hd, hi, hq, hp, hm, Bool.false_eq_true, if_false, if_true]
            exact ⟨by omega, by omega, hnc⟩
          · by_cases hst : c == '*'
            · simp only [hd, hi, hq, hp, hm, hst, Bool.false_eq_true, if_false, if_true]
              exact ⟨by omega, by omega, hnc⟩
            · by_cases hsl : c == '/'
              · simp only [hd, hi, hq, hp, hm, hst, hsl, Bool.false_eq_true, if_false,
                  if_true]
                exact ⟨by omega, by omega, hnc⟩
              · simp only [hd, hi, hq, hp, hm, hst, hsl, Bool.false_eq_true, if_false]
                exact ⟨by omega, by omega, hnc⟩

theorem dispatch_ne_eoi (s : CharStream) (c : Char) :
    (dispatch s c).1 ≠ ScanResult.tok Token.EndOfInput := by
  unfold dispatch
  by_cases hd : c.isDigit
  · simp [hd]
  · by_cases hi : isIdentStart c
    · simp [hd, hi]
    · by_cases hq : c == '"'
      · simp only [hd, hi, hq, Bool.false_eq_true, if_false, if_true]
        cases hr : (scanString (s.next).2).1 with
        | some content => simp
        | none => simp
      · by_cases hp : c == '+'
        · simp [hd, hi, hq, hp]
        · by_cases hm : c == '-'
          · simp [hd, hi, hq, hp, hm]
          · by_cases hst : c == '*'
            · simp [hd, hi, hq, hp, hm, hst]
            · by_cases hsl : c == '/'
              · simp [hd, hi, hq, hp, hm, hst, hsl]
              · simp [hd, hi, hq, hp, hm, hst, hsl]

theorem dispatch_unterminated_done {s : CharStream} {c : Char}
    (h : (dispatch s c).1 = ScanResult.unterminated) : (dispatch s c).2.done = true := by
  unfold dispatch at h ⊢
  by_cases hd : c.isDigit
  · simp [hd] at h
  · by_cases hi : isIdentStart c
    · simp [hd, hi] at h
    · by_cases hq : c == '"'
      · simp only [hd, hi, hq, Bool.false_eq_true, if_false, if_true] at h ⊢
        cases hr : (scanString (s.next).2).1 with
        | some content => rw [hr] at h; simp at h
        | none => rfl
      · by_cases hp : c == '+'
        · simp [hd, hi, hq, hp] at h
        · by_cases hm : c == '-'
          · simp [hd, hi, hq, hp, hm] at h
          · by_cases hst : c == '*'
            · simp [hd, hi, hq, hp, hm, hst] at h
            · by_cases hsl : c == '/'
              · simp [hd, hi, hq, hp, hm, hst, hsl] at h
              · simp [hd, hi, hq, hp, hm, hst, hsl] at h

theorem nextToken_of_done {sc : Scanner} (h : sc.done = true) :
    nextToken sc = (ScanResult.tok Token.EndOfInput, sc) := by
  simp [nextToken, h]

theorem nextToken_not_done_none {sc : Scanner} (hd : sc.done = false)
    (hp : (skipWhitespace sc.cursor).peek = none) :
    nextToken sc =
      (ScanResult.tok Token.EndOfInput, { cursor := skipWhitespace sc.cursor, done := true }) := by
  simp [nextToken, hd, hp]

theorem nextToken_not_done_some {sc : Scanner} {c : Char} (hd : sc.done = false)
    (hp : (skipWhitespace sc.cursor).peek = some c) :
    nextToken sc = dispatch (skipWhitespace sc.cursor) c := by
  simp [nextToken, hd, hp]

theorem nextToken_eoi_done {sc : Scanner}
    (h : (nextToken sc).1 = ScanResult.tok Token.EndOfInput) :
    (nextToken sc).2.done = true := by
  by_cases hd : sc.done = true
  · rw [nextToken_of_done hd]
    exact hd
  · simp only [Bool.not_eq_true] at hd
    cases hp : (skipWhitespace sc.cursor).peek with
    | none => rw [nextToken_not_done_none hd hp]
    | some c =>
        rw [nextToken_not_done_some hd hp] at h
        exact absurd h (dispatch_ne_eoi _ _)

theorem nextToken_unterminated_done {sc : Scanner}
    (h : (nextToken sc).1 = ScanResult.unterminated) :
    (nextToken sc).2.done = true := by
  by_cases hd : sc.done = true
  · rw [nextToken_of_done hd] at h
    simp at h
  · simp only [Bool.not_eq_true] at hd
    cases hp : (skipWhitespace sc.cursor).peek with
    | none => rw [nextToken_not_done_none hd hp] at h; simp at h
    | some c =>
        rw [nextToken_not_done_some hd hp] at h ⊢
        exact dispatch_unterminated_done h

theorem nextToken_progress {sc : Scanner}
    (h : (nextToken sc).1 ≠ ScanResult.tok Token.EndOfInput) :
    sc.cursor.pos < (nextToken sc).2.cursor.pos ∧
    (nextToken sc).2.cursor.pos ≤ sc.cursor.chars.length ∧
    (nextToken sc).2.cursor.chars = sc.cursor.chars := by
  by_cases hd : sc.done = true
  · rw [nextToken_of_done hd] at h
    simp at h
  · simp only [Bool.not_eq_true] at hd
    cases hp : (skipWhitespace sc.cursor).peek with
    | none => rw [nextToken_not_done_none hd hp] at h; simp at h
    | some c =>
        rw [nextToken_not_done_some hd hp]
        obtain ⟨h1, h2, h3⟩ := dispatch_progress hp
        have hg := skipWhitespace_pos_ge sc.cursor
        have hc := skipWhitespace_chars sc.cursor
        rw [hc] at h2 h3
        exact ⟨by omega, h2, h3⟩

theorem scanLoopF_ends (fuel : Nat) :
    ∀ sc : Scanner, sc.cursor.chars.length - sc.cursor.pos < fuel →
      (scanLoopF fuel sc).getLast? = some (ScanResult.tok Token.EndOfInput) ∧
      (scanLoopF fuel sc).length ≤ fuel := by
  induction fuel with
  | zero => intro sc h; exact absurd h (Nat.not_lt_zero _)
  | succ fuel ih =>
      intro sc h
      simp only [scanLoopF]
      by_cases hc : (nextToken sc).1 = ScanResult.tok Token.EndOfInput
      · rw [if_pos hc, hc]
        simp
      · rw [if_neg hc]
        obtain ⟨h1, h2, h3⟩ := nextToken_progress hc
        have hrem : (nextToken sc).2.cursor.chars.length - (nextToken sc).2.cursor.pos
            < fuel := by
          rw [h3]; omega
        obtain ⟨ih1, ih2⟩ := ih (nextToken sc).2 hrem
        constructor
        · cases hl : scanLoopF fuel (nextToken sc).2 with
          | nil => rw [hl] at ih1; simp at ih1
          | cons b l =>
              rw [hl] at ih1
              rw [List.getLast?_cons_cons]
              exact ih1
        · simp only [List.length_cons]
          omega

theorem tokenize_spec (input : String) :
    (tokenize input).getLast? = some (ScanResult.tok Token.EndOfInput) ∧
    (tokenize input).length ≤ input.data.length + 1 := by
  have h : (Scanner.new input).cursor.chars.length - (Scanner.new input).cursor.pos
      < input.data.length + 1 := by
    simp [Scanner.new, CharStream.new]
  exact scanLoopF_ends (input.data.length + 1) (Scanner.new input) h

theorem scStep_of_done {sc : Scanner} (h : sc.done = true) : scStep sc = sc := by
  simp [scStep, nextToken_of_done h]

/-- A call to either Cursor method, as an operation on the Cursor state:
`peek` takes `&self` and leaves the state as is, `advance` (the source's
`next`) may move the position. -/
inductive CursorOp where
  | peek : CursorOp
  | advance : CursorOp

/-- Apply one Cursor method call to a Cursor state. -/
def applyOp (s : CharStream) : CursorOp → CharStream
  | CursorOp.peek => (s.peekOp).2
  | CursorOp.advance => (s.next).2

/-- Apply a whole sequence of Cursor method calls, left to right. -/
def applyOps (s : CharStream) (ops : List CursorOp) : CharStream :=
  ops.foldl applyOp s

theorem applyOp_chars (s : CharStream) (op : CursorOp) : (applyOp s op).chars = s.chars := by
  cases op with
  | peek => rfl
  | advance => exact CharStream.next_chars s

theorem applyOp_pos_ge (s : CharStream) (op : CursorOp) : s.pos ≤ (applyOp s op).pos := by
  cases op with
  | peek => exact Nat.le_refl _
  | advance => exact CharStream.next_pos_ge s

theorem applyOp_pos_le (s : CharStream) (op : CursorOp) :
    (applyOp s op).pos ≤ max s.pos s.chars.length := by
  cases op with
  | peek => exact Nat.le_max_left _ _
  | advance => exact CharStream.next_pos_le s

theorem applyOps_chars (ops : List CursorOp) :
    ∀ s : CharStream, (applyOps s ops).chars = s.chars := by
  induction ops with
  | nil => intro s; rfl
  | cons op ops ih =>
      intro s
      show (applyOps (applyOp s op) ops).chars = s.chars
      rw [ih, applyOp_chars]

theorem applyOps_pos_ge (ops : List CursorOp) :
    ∀ s : CharStream, s.pos ≤ (applyOps s ops).pos := by
  induction ops with
  | nil => intro s; exact Nat.le_refl _
  | cons op ops ih =>
      intro s
      exact Nat.le_trans (applyOp_pos_ge s op) (ih (applyOp s op))

theorem applyOps_pos_le (ops : List CursorOp) :
    ∀ s : CharStream, (applyOps s ops).pos ≤ max s.pos s.chars.length := by
  induction ops with
  | nil => intro s; exact Nat.le_max_left _ _
  | cons op ops ih =>
      intro s
      have h1 := ih (applyOp s op)
      have h2 := applyOp_pos_le s op
      have h3 := applyOp_chars s op
      rw [h3] at h1
      show (applyOps (applyOp s op) ops).pos ≤ max s.pos s.chars.length
      omega

/-- Embedded from `07_while_let.rs`: the drain loop of `main`,
`while let Some(c) = stream.next() { ... }`, collecting the characters the
stream yields in order.  The loop is written with an explicit iteration bound
as the scanner loops are; `chars.length - pos + 1` iterations always
suffice. -/
def drainF : Nat → CharStream → List Char × CharStream
  | 0, s => ([], s)
  | fuel + 1, s =>
    match s.next with
    | (some c, s1) =>
        let r := drainF fuel s1
        (c :: r.1, r.2)
    | (none, s1) => ([], s1)

/-- Embedded from `07_while_let.rs`: draining a `CharStream` to the end,
returning the collected characters and the final stream state. -/
def drain (s : CharStream) : List Char × CharStream :=
  drainF (s.chars.length - s.pos + 1) s

theorem drainF_spec (fuel : Nat) :
    ∀ s : CharStream, s.chars.length - s.pos < fuel →
      drainF fuel s =
        (s.chars.drop s.pos, CharStream.mk s.chars (max s.pos s.chars.length)) := by
  induction fuel with
  | zero => intro s h; exact absurd h (Nat.not_lt_zero _)
  | succ fuel ih =>
      intro s h
      by_cases hlt : s.pos < s.chars.length
      · simp only [drainF]
        rw [CharStream.next_of_lt hlt]
        have hrem : ({ s with pos := s.pos + 1 } : CharStream).chars.length
            - ({ s with pos := s.pos + 1 } : CharStream).pos < fuel := by
          simp
          omega
        show (s.chars.get ⟨s.pos, hlt⟩ :: (drainF fuel { s with pos := s.pos + 1 }).1,
            (drainF fuel { s with pos := s.pos + 1 }).2)
          = (s.chars.drop s.pos, CharStream.mk s.chars (max s.pos s.chars.length))
        rw [ih _ hrem]
        have hmax : max (s.pos + 1) s.chars.length = max s.pos s.chars.length := by
          omega
        simp only [Prod.mk.injEq]
        constructor
        · rw [List.drop_eq_getElem_cons hlt, List.get_eq_getElem]
        · rw [hmax]
      · have hge : s.chars.length ≤ s.pos := by omega
        simp only [drainF]
        rw [CharStream.next_of_ge hge]
        have hmax : max s.pos s.chars.length = s.pos := by omega
        show (([] : List Char), s)
          = (s.chars.drop s.pos, CharStream.mk s.chars (max s.pos s.chars.length))
        rw [List.drop_eq_nil_of_le hge, hmax]

/-- Claim C1: for every finite input, repeatedly calling `next_token`
terminates: the produced sequence is finite, ends in `EndOfInput`, and takes
at most `input length + 1` calls; moreover every call that returns a
non-`EndOfInput` result strictly increases the cursor position, which stays
bounded above by the input length. -/
theorem claim_c1_scanner_total (input : String) :
    (tokenize input).getLast? = some (ScanResult.tok Token.EndOfInput) ∧
    (tokenize input).length ≤ input.data.length + 1 ∧
    (∀ sc : Scanner, (nextToken sc).1 ≠ ScanResult.tok Token.EndOfInput →
      sc.cursor.pos < (nextToken sc).2.cursor.pos ∧
      (nextToken sc).2.cursor.pos ≤ sc.cursor.chars.length) :=
  ⟨(tokenize_spec input).1, (tokenize_spec input).2,
    fun _ h => ⟨(nextToken_progress h).1, (nextToken_progress h).2.1⟩⟩

theorem claim_c1_witness :
    (tokenize "12 + 34 - 5").getLast? = some (ScanResult.tok Token.EndOfInput) ∧
    (Scanner.new "@").cursor.pos < (nextToken (Scanner.new "@")).2.cursor.pos :=
  ⟨(claim_c1_scanner_total "12 + 34 - 5").1,
    ((claim_c1_scanner_total "@").2.2 (Scanner.new "@") (by decide)).1⟩

/-- Claim C2: scanning `"12 + 34 - 5"` yields exactly
`[Number 12, Plus, Number 34, Minus, Number 5, EndOfInput]`; number mode
consumes a maximal run of adjacent digits with positional accumulation, so
the adjacent digits of `"12"` become the single token `Number 12` rather
than one token per digit. -/
theorem claim_c2_number_mode :
    tokenize "12 + 34 - 5" =
      [ScanResult.tok (Token.Number 12), ScanResult.tok Token.Plus,
       ScanResult.tok (Token.Number 34), ScanResult.tok Token.Minus,
       ScanResult.tok (Token.Number 5), ScanResult.tok Token.EndOfInput] ∧
    tokenize "12" = [ScanResult.tok (Token.Number 12), ScanResult.tok Token.EndOfInput] := by
  exact ⟨by decide, by decide⟩

/-- Claim C3: once `next_token` has returned `EndOfInput`, every subsequent
call returns `EndOfInput` again (never a failure or another token), because
the `Done` state entered on producing `EndOfInput` is absorbing. -/
theorem claim_c3_eoi_absorbing (sc : Scanner)
    (h : (nextToken sc).1 = ScanResult.tok Token.EndOfInput) :
    (scStep sc).done = true ∧
    ∀ n : Nat,
      (nextToken (scStep^[n] (scStep sc))).1 = ScanResult.tok Token.EndOfInput ∧
      scStep^[n] (scStep sc) = scStep sc := by
  have hdone : (scStep sc).done = true := nextToken_eoi_done h
  refine ⟨hdone, fun n => ?_⟩
  induction n with
  | zero =>
      refine ⟨?_, rfl⟩
      rw [Function.iterate_zero_apply, nextToken_of_done hdone]
  | succ n ih =>
      rw [Function.iterate_succ_apply']
      rw [ih.2, scStep_of_done hdone]
      exact ⟨by rw [nextToken_of_done hdone], rfl⟩

theorem claim_c3_witness :
    (scStep (Scanner.new "")).done = true ∧
    (nextToken (scStep^[3] (scStep (Scanner.new "")))).1 = ScanResult.tok Token.EndOfInput :=
  ⟨(claim_c3_eoi_absorbing (Scanner.new "") (by decide)).1,
    ((claim_c3_eoi_absorbing (Scanner.new "") (by decide)).2 3).1⟩

/-- Claim C4: reaching end of input inside a string literal emits no
`StringLiteral` token: the scan of `"\"unterminated"` yields only the
unterminated-string failure signal, which is distinct from every normal
token, and the call after an unterminated-string result returns
`EndOfInput`. -/
theorem claim_c4_unterminated :
    tokenize "\"unterminated" = [ScanResult.unterminated, ScanResult.tok Token.EndOfInput] ∧
    (∀ t : Token, ScanResult.unterminated ≠ ScanResult.tok t) ∧
    (∀ sc : Scanner, (nextToken sc).1 = ScanResult.unterminated →
      (nextToken (nextToken sc).2).1 = ScanResult.tok Token.EndOfInput) := by
  refine ⟨by decide, fun t => by simp, fun sc h => ?_⟩
  rw [nextToken_of_done (nextToken_unterminated_done h)]

theorem claim_c4_witness :
    (nextToken (nextToken (Scanner.new "\"x")).2).1 = ScanResult.tok Token.EndOfInput :=
  claim_c4_unterminated.2.2 (Scanner.new "\"x") (by decide)

/-- Claim C5: for a peeked character that is not whitespace, not a digit, not
a letter or underscore, not a double quote and not one of `+ - * /`,
`next_token` consumes exactly that one character (position advances by one)
and emits `Unknown` as a normal token with the scanner not in `Done`, so
scanning continues; `"@@"` yields `[Unknown '@', Unknown '@', EndOfInput]`. -/
theorem claim_c5_unknown (sc : Scanner) (c : Char)
    (hd : sc.done = false)
    (hp : sc.cursor.peek = some c)
    (hws : c.isWhitespace = false)
    (hdig : c.isDigit = false)
    (hid : isIdentStart c = false)
    (hq : (c == '"') = false)
    (hplus : (c == '+') = false)
    (hminus : (c == '-') = false)
    (hstar : (c == '*') = false)
    (hslash : (c == '/') = false) :
    nextToken sc =
      (ScanResult.tok (Token.Unknown c),
        { cursor := (sc.cursor.next).2, done := false }) ∧
    (sc.cursor.next).2.pos = sc.cursor.pos + 1 ∧
    tokenize "@@" =
      [ScanResult.tok (Token.Unknown '@'), ScanResult.tok (Token.Unknown '@'),
       ScanResult.tok Token.EndOfInput] := by
  have hskip : skipWhitespace sc.cursor = sc.cursor := skipWsF_not_ws hp hws _
  have hp2 : (skipWhitespace sc.cursor).peek = some c := by rw [hskip]; exact hp
  refine ⟨?_, CharStream.next_pos_of_peek hp, by decide⟩
  rw [nextToken_not_done_some hd hp2, hskip]
  unfold dispatch
  simp only [hdig, hid, hq, hplus, hminus, hstar, hslash, Bool.false_eq_true, if_false]

theorem claim_c5_witness :
    nextToken (Scanner.new "@@") =
      (ScanResult.tok (Token.Unknown '@'),
        { cursor := ((Scanner.new "@@").cursor.next).2, done := false }) :=
  (claim_c5_unknown (Scanner.new "@@") '@' (by decide) (by decide) (by decide) (by decide)
    (by decide) (by decide) (by decide) (by decide) (by decide) (by decide)).1

/-- Claim C6: when the position is strictly before the end of the input,
`advance` (the source's `CharStream::next`) returns the character at the
current position and moves the position forward by exactly one; at end of
input it returns `none` and does not move the position. -/
theorem claim_c6_advance (s : CharStream) :
    (∀ h : s.pos < s.chars.length,
      s.next = (some (s.chars.get ⟨s.pos, h⟩), { s with pos := s.pos + 1 })) ∧
    (s.chars.length ≤ s.pos → s.next = (none, s)) :=
  ⟨fun h => CharStream.next_of_lt h, fun h => CharStream.next_of_ge h⟩

theorem claim_c6_witness :
    (CharStream.mk ['a', 'b'] 0).next
      = (some ((['a', 'b'] : List Char).get ⟨0, by decide⟩), CharStream.mk ['a', 'b'] 1) ∧
    (CharStream.mk ['a', 'b'] 2).next = (none, CharStream.mk ['a', 'b'] 2) :=
  ⟨(claim_c6_advance (CharStream.mk ['a', 'b'] 0)).1 (by decide),
    (claim_c6_advance (CharStream.mk ['a', 'b'] 2)).2 (by decide)⟩

/-- Claim C7: `peek` is side-effect free: it returns the character at the
current position (or `none` at end of input) and leaves the whole Cursor
state unchanged, so any number of consecutive `peek` calls return the same
result. -/
theorem claim_c7_peek_pure (s : CharStream) :
    (s.peekOp).2 = s ∧
    (∀ h : s.pos < s.chars.length, s.peek = some (s.chars.get ⟨s.pos, h⟩)) ∧
    (s.chars.length ≤ s.pos → s.peek = none) ∧
    (∀ n : Nat, ((fun t : CharStream => (t.peekOp).2)^[n] s).peek = s.peek) := by
  refine ⟨rfl, fun h => CharStream.peek_of_lt h, fun h => CharStream.peek_of_ge h, fun n => ?_⟩
  have hid : (fun t : CharStream => (t.peekOp).2) = id := rfl
  rw [hid, Function.iterate_id]
  rfl

theorem claim_c7_witness :
    (CharStream.mk ['a'] 0).peek = some ((['a'] : List Char).get ⟨0, by decide⟩) ∧
    (CharStream.mk ['a'] 1).peek = none :=
  ⟨(claim_c7_peek_pure (CharStream.mk ['a'] 0)).2.1 (by decide),
    (claim_c7_peek_pure (CharStream.mk ['a'] 1)).2.2.1 (by decide)⟩

/-- Claim C8: for every position at or past the end of the input, both
Cursor operations are total and yield the explicit absent value: `peek`
returns `none` and `advance` returns `none` without moving, never an
out-of-bounds access or a distinguished error. -/
theorem claim_c8_no_panic (s : CharStream) (h : s.chars.length ≤ s.pos) :
    s.peek = none ∧ s.next = (none, s) :=
  ⟨CharStream.peek_of_ge h, CharStream.next_of_ge h⟩

theorem claim_c8_witness :
    (CharStream.mk [] 5).peek = none ∧
    (CharStream.mk [] 5).next = (none, CharStream.mk [] 5) :=
  claim_c8_no_panic (CharStream.mk [] 5) (by decide)

/-- Claim C9: across every sequence of `peek` and `advance` calls the
Cursor's position is non-decreasing (never decremented or reset), the input
sequence is unchanged, and the position stays within `[0, input length]`
whenever it started there — in particular for a Cursor built by `new`. -/
theorem claim_c9_monotone (ops : List CursorOp) (s : CharStream) :
    s.pos ≤ (applyOps s ops).pos ∧
    (applyOps s ops).chars = s.chars ∧
    (s.pos ≤ s.chars.length → (applyOps s ops).pos ≤ s.chars.length) ∧
    (∀ input : String, (applyOps (CharStream.new input) ops).pos ≤ input.data.length) := by
  refine ⟨applyOps_pos_ge ops s, applyOps_chars ops s, fun h => ?_, fun input => ?_⟩
  · have := applyOps_pos_le ops s
    omega
  · have h1 := applyOps_pos_le ops (CharStream.new input)
    have h2 : (CharStream.new input).chars = input.data := rfl
    have h3 : (CharStream.new input).pos = 0 := rfl
    rw [h2, h3] at h1
    omega

theorem claim_c9_witness :
    (applyOps (CharStream.mk ['a'] 0) [CursorOp.advance, CursorOp.advance]).pos
      ≤ (['a'] : List Char).length :=
  (claim_c9_monotone [CursorOp.advance, CursorOp.advance] (CharStream.mk ['a'] 0)).2.2.1
    (by decide)

/-- Claim C10: draining a fresh `CharStream` over `s` with repeated `next`
calls yields exactly the characters of `s`, in order, each exactly once;
afterwards every further `next` returns `none` without moving and `peek`
returns `none`. -/
theorem claim_c10_roundtrip (input : String) :
    (drain (CharStream.new input)).1 = input.data ∧
    ((drain (CharStream.new input)).2).peek = none ∧
    ((drain (CharStream.new input)).2).next = (none, (drain (CharStream.new input)).2) := by
  have hnew : CharStream.new input = CharStream.mk input.data 0 := rfl
  have hdrain : drain (CharStream.new input)
      = (input.data.drop 0, CharStream.mk input.data (max 0 input.data.length)) := by
    unfold drain
    rw [hnew]
    exact drainF_spec _ (CharStream.mk input.data 0) (by simp)
  have hmax : max 0 input.data.length = input.data.length := by omega
  rw [hdrain, hmax]
  refine ⟨List.drop_zero _, ?_, ?_⟩
  · exact CharStream.peek_of_ge (Nat.le_refl _)
  · exact CharStream.next_of_ge (Nat.le_refl _)
